import Mathlib

/-!
Verification of the blog listing application's core logic (category
aggregation, filtering, pagination, selection state, fetch/detail error
handling) against its natural-language specification.

The definitions below are a shallow embedding of the TypeScript source:
`App.tsx` (fetchPosts, filterAndPaginatePosts, handleCategoryToggle,
handleClearFilters, handleLoadMore, getFilteredPostsCount, hasMorePosts),
`PostDetail` (fetchPost and its render branches) and the shared types in
`types/index.ts`. The JavaScript `Map` used by the category aggregation is
embedded as an insertion-ordered association list with unique keys, which
is exactly the observable behaviour of `Map` iteration.
-/

namespace Blog

/-- Author record from `types/index.ts`. -/
structure Author where
  name : String
  avatar : String
deriving Repr, DecidableEq

/-- Category record from `types/index.ts`: raw identifier plus display name. -/
structure Category where
  id : String
  name : String
deriving Repr, DecidableEq

/-- Post record from `types/index.ts`. -/
structure Post where
  id : String
  title : String
  publishDate : String
  author : Author
  summary : String
  categories : List Category
deriving Repr, DecidableEq

/-- CategoryWithCount from `types/index.ts`, as built by `fetchPosts`:
the aggregate record stored per category name. -/
structure CategoryWithCount where
  id : String
  name : String
  ids : List String
  count : Nat
deriving Repr, DecidableEq

/-- The fixed page size `POSTS_PER_PAGE = 6` from `App.tsx`. -/
def POSTS_PER_PAGE : Nat := 6

/-- Filtering step of `filterAndPaginatePosts` (App.tsx lines 121-132):
if any categories are selected, keep the posts having at least one
category whose NAME is in the selection; otherwise keep all posts. -/
def filterPosts (allPosts : List Post) (selectedCategories : List String) :
    List Post :=
  if selectedCategories.length > 0 then
    allPosts.filter (fun post =>
      post.categories.any (fun category =>
        selectedCategories.contains category.name))
  else
    allPosts

/-- Pagination step of `filterAndPaginatePosts` (App.tsx lines 134-136):
`filtered.slice(0, currentPage * POSTS_PER_PAGE)`. -/
def paginate (filtered : List Post) (pageSize currentPage : Nat) : List Post :=
  filtered.take (currentPage * pageSize)

/-- `filterAndPaginatePosts` (App.tsx lines 121-139): the displayed posts
derived from the full collection, the selection and the current page. -/
def filterAndPaginatePosts (allPosts : List Post)
    (selectedCategories : List String) (currentPage : Nat) : List Post :=
  paginate (filterPosts allPosts selectedCategories) POSTS_PER_PAGE currentPage

/-- `getFilteredPostsCount` (App.tsx lines 190-199). Note that, unlike
`filterPosts`, this function compares the selection against the raw
category identifier `category.id`, not `category.name`. -/
def getFilteredPostsCount (allPosts : List Post)
    (selectedCategories : List String) : Nat :=
  if selectedCategories.length = 0 then
    allPosts.length
  else
    (allPosts.filter (fun post =>
      post.categories.any (fun category =>
        selectedCategories.contains category.id))).length

/-- `hasMorePosts` (App.tsx line 201): displayed count strictly below the
count computed by `getFilteredPostsCount`. -/
def hasMorePosts (allPosts : List Post) (selectedCategories : List String)
    (currentPage : Nat) : Bool :=
  decide ((filterAndPaginatePosts allPosts selectedCategories currentPage).length
    < getFilteredPostsCount allPosts selectedCategories)

/-- One `categoryMap` update of `fetchPosts` (App.tsx lines 83-102), on the
insertion-ordered association list embedding the JavaScript `Map`: on a hit
(same name) increment the count and record the raw identifier if new; on a
miss append a fresh record whose `id` field is the NAME. -/
def updateCategoryMap (category : Category) :
    List CategoryWithCount → List CategoryWithCount
  | [] => [{ id := category.name, name := category.name,
             ids := [category.id], count := 1 }]
  | entry :: rest =>
    if entry.name = category.name then
      { entry with
          count := entry.count + 1,
          ids := if entry.ids.contains category.id then entry.ids
                 else entry.ids ++ [category.id] } :: rest
    else
      entry :: updateCategoryMap category rest

/-- The nested `forEach` loops of `fetchPosts` (App.tsx lines 84-102)
building the category map over every category of every post. -/
def buildCategoryMap (posts : List Post) : List CategoryWithCount :=
  posts.foldl
    (fun acc post =>
      post.categories.foldl (fun acc c => updateCategoryMap c acc) acc)
    []

/-- `uniqueCategories` (App.tsx lines 105-106): the map's values sorted by
name (the `localeCompare` comparator is embedded as the string order). -/
def uniqueCategories (posts : List Post) : List CategoryWithCount :=
  (buildCategoryMap posts).mergeSort (fun a b => decide (a.name ≤ b.name))

/-- All (post, category) occurrences of a collection, in order: the
sequence of categories the aggregation loops of `fetchPosts` visit. -/
def allCategoryOccurrences (posts : List Post) : List Category :=
  posts.flatMap (fun p => p.categories)

/-- `handleCategoryToggle`'s selection update (App.tsx lines 147-155):
remove every occurrence when present, append when absent. -/
def toggleCategory (prev : List String) (categoryId : String) : List String :=
  if prev.contains categoryId then
    prev.filter (fun i => i ≠ categoryId)
  else
    prev ++ [categoryId]

/-- The `categories` URL query parameter written by `handleCategoryToggle`
(App.tsx lines 157-162): the comma-joined selection, or absent when the
selection is empty. -/
def categoriesParam (selected : List String) : Option String :=
  if selected.length > 0 then some (String.intercalate "," selected) else none

/-- The filter-related state of `App`: the selected category names and the
current page number. -/
structure FilterState where
  selectedCategories : List String
  currentPage : Nat
deriving Repr, DecidableEq

/-- The user transitions of the selection state machine:
`handleCategoryToggle`, `handleClearFilters` and `handleLoadMore`. -/
inductive FilterAction where
  | toggle (categoryId : String)
  | clearFilters
  | loadMore
deriving Repr, DecidableEq

/-- One transition of the selection state machine (App.tsx lines 146-185):
toggling rewrites the selection and resets the page to 1, clearing empties
the selection and resets the page to 1, load-more increments the page. -/
def applyFilterAction (s : FilterState) : FilterAction → FilterState
  | .toggle c =>
      { selectedCategories := toggleCategory s.selectedCategories c,
        currentPage := 1 }
  | .clearFilters => { selectedCategories := [], currentPage := 1 }
  | .loadMore => { s with currentPage := s.currentPage + 1 }

/-- Run a sequence of user actions from the initial state: empty selection,
page 1 (App.tsx lines 35-37). -/
def runFilterActions (acts : List FilterAction) : FilterState :=
  acts.foldl applyFilterAction { selectedCategories := [], currentPage := 1 }

/-- The app-level state touched by `fetchPosts` (App.tsx lines 32-36). -/
structure AppState where
  allPosts : List Post
  categories : List CategoryWithCount
  loading : Bool
deriving Repr, DecidableEq

/-- `fetchPosts` (App.tsx lines 72-114) as a state transformer on the
fetch outcome: `some posts` is a successful response, `none` is a network
or parse failure caught by the surrounding try/catch. On success the
collection and the aggregated categories are replaced and loading is
cleared; on failure only the loading flag is cleared. -/
def fetchPostsApply (s : AppState) (response : Option (List Post)) : AppState :=
  let started := { s with loading := true }
  match response with
  | some posts =>
      { started with
          allPosts := posts,
          categories := uniqueCategories posts,
          loading := false }
  | none => { started with loading := false }

/-- The three render branches of the `PostDetail` component: the loading
spinner, the explicit not-found state (which carries the back-navigation
target, `/` in the source), and the full detail of a found post. -/
inductive DetailView where
  | loadingView
  | notFound (backPath : String)
  | detail (post : Post)
deriving Repr, DecidableEq

/-- The state of the `PostDetail` component after its fetch settles. -/
structure DetailState where
  post : Option Post
  loading : Bool
deriving Repr, DecidableEq

/-- `PostDetail.fetchPost` after a successful collection fetch: find the
post with the matching identifier (`data.posts.find(p => p.id === id)`),
store it (or `null`) and clear the loading flag. -/
def detailAfterFetch (posts : List Post) (postId : String) : DetailState :=
  { post := posts.find? (fun p => p.id = postId), loading := false }

/-- The render logic of `PostDetail`: loading branch first, then the
not-found branch (with the Back-to-Home button navigating to `/`), then
the detail branch. -/
def renderDetail (s : DetailState) : DetailView :=
  if s.loading then
    DetailView.loadingView
  else
    match s.post with
    | none => DetailView.notFound "/"
    | some p => DetailView.detail p

/-- A concrete post tagged with the category name `Tech` under a raw
identifier distinct from the name, as in the upstream data. -/
def mkTechPost (n : String) : Post :=
  { id := n, title := "t", publishDate := "2024-01-01",
    author := { name := "a", avatar := "av" }, summary := "s",
    categories := [{ id := "cat-" ++ n, name := "Tech" }] }

/-- Seven concrete `Tech` posts: one more than a page. -/
def sevenTechPosts : List Post :=
  ["1", "2", "3", "4", "5", "6", "7"].map mkTechPost

/-- Projection used throughout: the names of the aggregate records, in
order. -/
def mapNames (acc : List CategoryWithCount) : List String :=
  acc.map (fun r => r.name)

/-- Total of the `count` fields of an aggregate list. -/
def totalCount (acc : List CategoryWithCount) : Nat :=
  (acc.map (fun r => r.count)).sum

/-- Sum of the `count` fields of the records carrying a given name. -/
def countForName (acc : List CategoryWithCount) (n : String) : Nat :=
  ((acc.filter (fun r => r.name = n)).map (fun r => r.count)).sum

/-- Concatenation of the `ids` fields of the records carrying a given
name. -/
def idsForName (acc : List CategoryWithCount) (n : String) : List String :=
  (acc.filter (fun r => r.name = n)).flatMap (fun r => r.ids)

/-- The category-map fold over a flat sequence of category occurrences. -/
def foldCategoryMap (cs : List Category) (acc : List CategoryWithCount) :
    List CategoryWithCount :=
  cs.foldl (fun a c => updateCategoryMap c a) acc

/-- Claim C3: filtering with an empty selection set returns the original
collection unchanged, in the same order. -/
theorem C3_empty_selection_identity (allPosts : List Post) :
    filterPosts allPosts [] = allPosts := by
  simp [filterPosts]

/-- Claim C9: a failed collection fetch clears the loading flag and leaves
the post collection and the aggregated category list unchanged (empty on
the initial fetch); `fetchPostsApply` is a total function, so no exception
escapes the try/catch and the state degrades to the empty presentational
state. -/
theorem C9_fetch_failure_degrades (s : AppState) :
    (fetchPostsApply s none).loading = false ∧
    (fetchPostsApply s none).allPosts = s.allPosts ∧
    (fetchPostsApply s none).categories = s.categories := by
  simp [fetchPostsApply]

/-- Claim C6: for every page size and page number n ≥ 1, page n's window
is a prefix of page (n+1)'s window, and paginating an already paginated
window again is the identity. -/
theorem C6_paginate_monotone_idempotent (posts : List Post)
    (pageSize n : Nat) (h : 1 ≤ n) :
    paginate posts pageSize n <+: paginate posts pageSize (n + 1) ∧
    paginate (paginate posts pageSize n) pageSize n =
      paginate posts pageSize n := by
  refine ⟨?_, ?_⟩
  · have hle : n * pageSize ≤ (n + 1) * pageSize :=
      Nat.mul_le_mul_right _ (Nat.le_succ n)
    have htake : (paginate posts pageSize (n + 1)).take (n * pageSize) =
        paginate posts pageSize n := by
      simp [paginate, List.take_take, min_eq_left hle]
    exact htake ▸ List.take_prefix (n * pageSize) (paginate posts pageSize (n + 1))
  · simp [paginate, List.take_take]

/-- Witness for C6 at a concrete collection, page size 6, page 1. -/
theorem C6_witness :
    1 ≤ 1 ∧
    (paginate sevenTechPosts 6 1 <+: paginate sevenTechPosts 6 2 ∧
     paginate (paginate sevenTechPosts 6 1) 6 1 = paginate sevenTechPosts 6 1) :=
  ⟨le_refl 1, C6_paginate_monotone_idempotent sevenTechPosts 6 1 (le_refl 1)⟩

/-- Claim C2: with a non-empty selection, the filter output contains a
post iff it is in the input and at least one of its categories has a name
in the selection (OR across categories), and the output preserves the
input's relative order (it is a sublist of the input). -/
theorem C2_filter_nonempty_membership_order (allPosts : List Post)
    (sel : List String) (h : sel ≠ []) :
    (∀ p : Post, p ∈ filterPosts allPosts sel ↔
        p ∈ allPosts ∧ ∃ c ∈ p.categories, c.name ∈ sel) ∧
    (filterPosts allPosts sel).Sublist allPosts := by
  have hlen : 0 < sel.length := List.length_pos.mpr h
  refine ⟨?_, ?_⟩
  · intro p
    simp [filterPosts, hlen, List.mem_filter, List.any_eq_true,
      List.contains, List.elem_iff]
  · rw [filterPosts, if_pos hlen]
    exact List.filter_sublist _

/-- Witness for C2: seven `Tech` posts filtered by the selection
`["Tech"]`. -/
theorem C2_witness :
    (["Tech"] : List String) ≠ [] ∧
    ((∀ p : Post, p ∈ filterPosts sevenTechPosts ["Tech"] ↔
        p ∈ sevenTechPosts ∧ ∃ c ∈ p.categories, c.name ∈ ["Tech"]) ∧
     (filterPosts sevenTechPosts ["Tech"]).Sublist sevenTechPosts) :=
  ⟨by decide, C2_filter_nonempty_membership_order sevenTechPosts ["Tech"] (by decide)⟩

/-- Claim C8: fetching a detail view for an identifier matching no post in
the collection renders the explicit not-found state (with the back path to
the list view), not the loading state and not a crash. -/
theorem C8_unknown_id_not_found (posts : List Post) (postId : String)
    (h : ∀ p ∈ posts, p.id ≠ postId) :
    renderDetail (detailAfterFetch posts postId) = DetailView.notFound "/" := by
  have hnone : posts.find? (fun p => p.id = postId) = none := by
    rw [List.find?_eq_none]
    intro p hp
    simpa using h p hp
  simp [renderDetail, detailAfterFetch, hnone]

/-- Witness for C8: the identifier `99` matches none of the seven concrete
posts. -/
theorem C8_witness :
    (∀ p ∈ sevenTechPosts, p.id ≠ "99") ∧
    renderDetail (detailAfterFetch sevenTechPosts "99") =
      DetailView.notFound "/" :=
  ⟨by decide, C8_unknown_id_not_found sevenTechPosts "99" (by decide)⟩

/-- Claim C1 (code bug): `hasMorePosts` compares the visible count against
`getFilteredPostsCount`, which matches the selection against the raw
category identifier instead of the category name used by the filter
engine. On seven posts whose single category is named `Tech` under raw
identifiers `cat-1`..`cat-7`, with selection `["Tech"]` on page 1, the
name-based filter shows 6 of 7 posts, yet the code reports no more pages
because the identifier-based count is 0. -/
theorem C1_hasMore_counts_by_raw_id :
    hasMorePosts sevenTechPosts ["Tech"] 1 = false ∧
    getFilteredPostsCount sevenTechPosts ["Tech"] = 0 ∧
    (filterAndPaginatePosts sevenTechPosts ["Tech"] 1).length <
      (filterPosts sevenTechPosts ["Tech"]).length := by decide

/-- Counterexample to claim C7 as stated: starting from the selection
`["a", "b"]`, toggling `"a"` twice yields `["b", "a"]` — the same set of
names, but not the original list, and the comma-joined URL parameter
becomes `b,a` instead of `a,b`. -/
theorem C7_counterexample :
    ¬ (toggleCategory (toggleCategory ["a", "b"] "a") "a" = ["a", "b"] ∧
       categoriesParam (toggleCategory (toggleCategory ["a", "b"] "a") "a") =
         categoriesParam ["a", "b"]) := by
  intro hcl
  exact absurd hcl.1 (by decide)

/-- Claim C7 (amended): toggling a name twice returns the selection to a
list with exactly the original membership; when the toggled name was
absent from the selection, the selection list and the URL `categories`
parameter are restored exactly. (When the name was present at a non-final
position, the restored list — and hence the comma-joined parameter — may
be a reordering of the original.) -/
theorem C7_toggle_twice_amended (sel : List String) (name : String) :
    (∀ x, x ∈ toggleCategory (toggleCategory sel name) name ↔ x ∈ sel) ∧
    (name ∉ sel →
      toggleCategory (toggleCategory sel name) name = sel ∧
      categoriesParam (toggleCategory (toggleCategory sel name) name) =
        categoriesParam sel) := by
  by_cases hmem : name ∈ sel
  · have hc : sel.contains name = true := by
      simpa [List.contains, List.elem_iff] using hmem
    have ht1 : toggleCategory sel name = sel.filter (fun i => i ≠ name) := by
      rw [toggleCategory, if_pos hc]
    have hfilter : ¬ name ∈ sel.filter (fun i => i ≠ name) := by
      simp [List.mem_filter]
    have ht2 : toggleCategory (toggleCategory sel name) name =
        sel.filter (fun i => i ≠ name) ++ [name] := by
      rw [ht1, toggleCategory,
        if_neg (by simp [List.contains, List.elem_iff, hfilter])]
    refine ⟨?_, fun hab => absurd hmem hab⟩
    intro x
    rw [ht2]
    simp only [List.mem_append, List.mem_filter, List.mem_singleton,
      decide_eq_true_eq]
    constructor
    · rintro (⟨hx, -⟩ | rfl)
      · exact hx
      · exact hmem
    · intro hx
      by_cases hxn : x = name
      · exact Or.inr hxn
      · exact Or.inl ⟨hx, hxn⟩
  · have hc : sel.contains name = false := by
      simp [List.contains, List.elem_iff, hmem]
    have happ : (sel ++ [name]).contains name = true := by
      simp [List.contains, List.elem_iff]
    have ht1 : toggleCategory sel name = sel ++ [name] := by
      rw [toggleCategory, if_neg (by simpa using hmem)]
    have hres : toggleCategory (toggleCategory sel name) name = sel := by
      rw [ht1, toggleCategory, if_pos happ, List.filter_append]
      have h1 : sel.filter (fun i => i ≠ name) = sel :=
        List.filter_eq_self.mpr (fun a ha => by
          simp only [decide_eq_true_eq]
          exact fun heq => hmem (heq ▸ ha))
      have h2 : ([name] : List String).filter (fun i => i ≠ name) = [] := by
        simp
      rw [h1, h2, List.append_nil]
    exact ⟨fun x => by rw [hres], fun _ => ⟨hres, by rw [hres]⟩⟩

/-- Witness for the amended C7 at the concrete selection `["b"]` and the
absent name `"a"`. -/
theorem C7_witness :
    ("a" ∉ (["b"] : List String)) ∧
    (∀ x, x ∈ toggleCategory (toggleCategory ["b"] "a") "a" ↔
        x ∈ (["b"] : List String)) ∧
    toggleCategory (toggleCategory ["b"] "a") "a" = ["b"] ∧
    categoriesParam (toggleCategory (toggleCategory ["b"] "a") "a") =
      categoriesParam ["b"] :=
  ⟨by decide, (C7_toggle_twice_amended ["b"] "a").1,
    (C7_toggle_twice_amended ["b"] "a").2 (by decide)⟩

/-- Toggling preserves the no-duplicates property of the selection list:
the removal branch filters, the addition branch appends a name that was
absent. -/
theorem toggleCategory_nodup (sel : List String) (name : String)
    (h : sel.Nodup) : (toggleCategory sel name).Nodup := by
  rw [toggleCategory]
  by_cases hmem : name ∈ sel
  · rw [if_pos (by simpa [List.contains, List.elem_iff] using hmem)]
    exact h.filter _
  · rw [if_neg (by simp [List.contains, List.elem_iff, hmem])]
    rw [List.nodup_append]
    refine ⟨h, List.nodup_singleton _, ?_⟩
    intro a ha hb
    rw [List.mem_singleton] at hb
    exact hmem (hb ▸ ha)

/-- Claim C10: starting from the empty selection, any sequence of toggle,
clear and load-more transitions leaves the selection list free of
duplicate category names, so it faithfully represents a set. -/
theorem C10_selection_nodup_invariant (acts : List FilterAction) :
    (runFilterActions acts).selectedCategories.Nodup := by
  suffices hgen : ∀ (as : List FilterAction) (s : FilterState),
      s.selectedCategories.Nodup →
      (as.foldl applyFilterAction s).selectedCategories.Nodup from
    hgen acts { selectedCategories := [], currentPage := 1 } List.nodup_nil
  intro as
  induction as with
  | nil => exact fun s hs => hs
  | cons a rest ih =>
      intro s hs
      rw [List.foldl_cons]
      apply ih
      cases a with
      | toggle c => exact toggleCategory_nodup _ _ hs
      | clearFilters => exact List.nodup_nil
      | loadMore => exact hs

/-- Unfolding lemma: the names of a cons. -/
theorem mapNames_cons (r : CategoryWithCount) (l : List CategoryWithCount) :
    mapNames (r :: l) = r.name :: mapNames l := rfl

/-- Unfolding lemma: the per-name count of a cons. -/
theorem countForName_cons (r : CategoryWithCount) (l : List CategoryWithCount)
    (n : String) :
    countForName (r :: l) n =
      (if r.name = n then r.count else 0) + countForName l n := by
  by_cases h : r.name = n <;> simp [countForName, List.filter_cons, h]

/-- Unfolding lemma: the per-name identifier list of a cons. -/
theorem idsForName_cons (r : CategoryWithCount) (l : List CategoryWithCount)
    (n : String) :
    idsForName (r :: l) n =
      (if r.name = n then r.ids else []) ++ idsForName l n := by
  by_cases h : r.name = n <;> simp [idsForName, List.filter_cons, h]

/-- Unfolding lemma: the count total of a cons. -/
theorem totalCount_cons (r : CategoryWithCount) (l : List CategoryWithCount) :
    totalCount (r :: l) = r.count + totalCount l := by
  simp [totalCount]

/-- One map update either leaves the name sequence unchanged (hit) or
appends the new name (miss). -/
theorem updateCategoryMap_mapNames (c : Category)
    (acc : List CategoryWithCount) :
    mapNames (updateCategoryMap c acc) =
      if c.name ∈ mapNames acc then mapNames acc
      else mapNames acc ++ [c.name] := by
  induction acc with
  | nil => simp [updateCategoryMap, mapNames]
  | cons entry rest ih =>
      by_cases h : entry.name = c.name
      · have hmem : c.name ∈ mapNames (entry :: rest) := by
          rw [mapNames_cons, List.mem_cons]
          exact Or.inl h.symm
        rw [if_pos hmem]
        simp [updateCategoryMap, h, mapNames_cons]
      · have hne : c.name ≠ entry.name := fun e => h e.symm
        by_cases hm : c.name ∈ mapNames rest <;>
          simp [updateCategoryMap, h, mapNames_cons, ih, hm, hne]

/-- One map update adds exactly one to the count bucket of the category's
name and leaves every other bucket unchanged. -/
theorem updateCategoryMap_countForName (c : Category)
    (acc : List CategoryWithCount) (n : String) :
    countForName (updateCategoryMap c acc) n =
      countForName acc n + (if c.name = n then 1 else 0) := by
  induction acc with
  | nil =>
      by_cases h : c.name = n <;>
        simp [updateCategoryMap, countForName, h]
  | cons entry rest ih =>
      by_cases h : entry.name = c.name
      · have hstep : updateCategoryMap c (entry :: rest) =
            { id := entry.id, name := entry.name,
              ids := if entry.ids.contains c.id then entry.ids
                     else entry.ids ++ [c.id],
              count := entry.count + 1 } :: rest := by
          simp [updateCategoryMap, h]
        rw [hstep, countForName_cons, countForName_cons]
        dsimp only
        by_cases hn : entry.name = n
        · rw [if_pos hn, if_pos hn, if_pos (h.symm.trans hn)]
          omega
        · rw [if_neg hn, if_neg hn, if_neg (fun e => hn (h.trans e))]
          omega
      · have hstep : updateCategoryMap c (entry :: rest) =
            entry :: updateCategoryMap c rest := by
          simp [updateCategoryMap, h]
        rw [hstep, countForName_cons, countForName_cons, ih]
        omega

/-- One map update adds exactly one to the total of all counts. -/
theorem updateCategoryMap_totalCount (c : Category)
    (acc : List CategoryWithCount) :
    totalCount (updateCategoryMap c acc) = totalCount acc + 1 := by
  induction acc with
  | nil => simp [updateCategoryMap, totalCount]
  | cons entry rest ih =>
      by_cases h : entry.name = c.name <;>
        simp [updateCategoryMap, h, totalCount_cons, ih] <;> omega

/-- One map update adds the category's identifier to its name's identifier
bucket (as a set) and leaves every other bucket unchanged. -/
theorem mem_idsForName_updateCategoryMap (c : Category)
    (acc : List CategoryWithCount) (n : String) (x : String) :
    x ∈ idsForName (updateCategoryMap c acc) n ↔
      x ∈ idsForName acc n ∨ (c.name = n ∧ x = c.id) := by
  induction acc with
  | nil =>
      by_cases h : c.name = n <;>
        simp [updateCategoryMap, idsForName, h]
  | cons entry rest ih =>
      by_cases h : entry.name = c.name
      · have hstep : updateCategoryMap c (entry :: rest) =
            { id := entry.id, name := entry.name,
              ids := if entry.ids.contains c.id then entry.ids
                     else entry.ids ++ [c.id],
              count := entry.count + 1 } :: rest := by
          simp [updateCategoryMap, h]
        rw [hstep, idsForName_cons, idsForName_cons]
        dsimp only
        by_cases hn : entry.name = n
        · have hcn : c.name = n := h.symm.trans hn
          rw [if_pos hn, if_pos hn]
          simp only [List.mem_append, hcn, true_and]
          by_cases hid : entry.ids.contains c.id
          · have hidm : c.id ∈ entry.ids := by
              simpa [List.contains, List.elem_iff] using hid
            rw [if_pos hid]
            constructor
            · tauto
            · rintro ((hx | hx) | rfl)
              · exact Or.inl hx
              · exact Or.inr hx
              · exact Or.inl hidm
          · rw [if_neg hid]
            simp only [List.mem_append, List.mem_singleton]
            tauto
        · have hcn : ¬ c.name = n := fun e => hn (h.trans e)
          rw [if_neg hn, if_neg hn]
          simp [hcn]
      · have hstep : updateCategoryMap c (entry :: rest) =
            entry :: updateCategoryMap c rest := by
          simp [updateCategoryMap, h]
        rw [hstep, idsForName_cons, idsForName_cons]
        by_cases hn : entry.name = n <;> simp [hn, ih] <;> tauto

/-- One map update keeps every identifier bucket duplicate-free. -/
theorem updateCategoryMap_ids_nodup (c : Category)
    (acc : List CategoryWithCount) (h : ∀ r ∈ acc, r.ids.Nodup) :
    ∀ r ∈ updateCategoryMap c acc, r.ids.Nodup := by
  induction acc with
  | nil =>
      intro r hr
      simp [updateCategoryMap] at hr
      subst hr
      simp
  | cons entry rest ih =>
      intro r hr
      by_cases hh : entry.name = c.name
      · have hstep : updateCategoryMap c (entry :: rest) =
            { id := entry.id, name := entry.name,
              ids := if entry.ids.contains c.id then entry.ids
                     else entry.ids ++ [c.id],
              count := entry.count + 1 } :: rest := by
          simp [updateCategoryMap, hh]
        rw [hstep] at hr
        rcases List.mem_cons.mp hr with rfl | hr
        · dsimp only
          by_cases hid : entry.ids.contains c.id
          · rw [if_pos hid]
            exact h entry (List.mem_cons_self _ _)
          · have hidm : ¬ c.id ∈ entry.ids := fun hm =>
              hid (by simpa [List.contains, List.elem_iff] using hm)
            rw [if_neg hid, List.nodup_append]
            refine ⟨h entry (List.mem_cons_self _ _), List.nodup_singleton _, ?_⟩
            intro a ha hb
            rw [List.mem_singleton] at hb
            exact hidm (hb ▸ ha)
        · exact h r (List.mem_cons_of_mem _ hr)
      · have hstep : updateCategoryMap c (entry :: rest) =
            entry :: updateCategoryMap c rest := by
          simp [updateCategoryMap, hh]
        rw [hstep] at hr
        rcases List.mem_cons.mp hr with rfl | hr
        · exact h r (List.mem_cons_self _ _)
        · exact ih (fun e he => h e (List.mem_cons_of_mem _ he)) r hr

/-- One map update keeps the display identifier of every record equal to
its name. -/
theorem updateCategoryMap_id_eq_name (c : Category)
    (acc : List CategoryWithCount) (h : ∀ r ∈ acc, r.id = r.name) :
    ∀ r ∈ updateCategoryMap c acc, r.id = r.name := by
  induction acc with
  | nil =>
      intro r hr
      simp [updateCategoryMap] at hr
      subst hr
      rfl
  | cons entry rest ih =>
      intro r hr
      by_cases hh : entry.name = c.name
      · have hstep : updateCategoryMap c (entry :: rest) =
            { id := entry.id, name := entry.name,
              ids := if entry.ids.contains c.id then entry.ids
                     else entry.ids ++ [c.id],
              count := entry.count + 1 } :: rest := by
          simp [updateCategoryMap, hh]
        rw [hstep] at hr
        rcases List.mem_cons.mp hr with rfl | hr
        · exact h entry (List.mem_cons_self _ _)
        · exact h r (List.mem_cons_of_mem _ hr)
      · have hstep : updateCategoryMap c (entry :: rest) =
            entry :: updateCategoryMap c rest := by
          simp [updateCategoryMap, hh]
        rw [hstep] at hr
        rcases List.mem_cons.mp hr with rfl | hr
        · exact h r (List.mem_cons_self _ _)
        · exact ih (fun e he => h e (List.mem_cons_of_mem _ he)) r hr

/-- Unfolding lemma: the flat fold over a cons. -/
theorem foldCategoryMap_cons (c : Category) (cs : List Category)
    (acc : List CategoryWithCount) :
    foldCategoryMap (c :: cs) acc =
      foldCategoryMap cs (updateCategoryMap c acc) := rfl

/-- The flat fold over an append is the composition of the folds. -/
theorem foldCategoryMap_append (l1 l2 : List Category)
    (acc : List CategoryWithCount) :
    foldCategoryMap (l1 ++ l2) acc =
      foldCategoryMap l2 (foldCategoryMap l1 acc) := by
  simp [foldCategoryMap, List.foldl_append]

/-- The nested post/category fold of `buildCategoryMap` equals the flat
fold over the sequence of all category occurrences. -/
theorem buildCategoryMap_eq_fold (posts : List Post) :
    buildCategoryMap posts =
      foldCategoryMap (allCategoryOccurrences posts) [] := by
  rw [buildCategoryMap]
  suffices hgen : ∀ (ps : List Post) (acc : List CategoryWithCount),
      ps.foldl (fun acc post =>
          post.categories.foldl (fun acc c => updateCategoryMap c acc) acc) acc =
        foldCategoryMap (allCategoryOccurrences ps) acc from hgen posts []
  intro ps
  induction ps with
  | nil => intro acc; rfl
  | cons p ps ih =>
      intro acc
      rw [List.foldl_cons, ih]
      have hocc : allCategoryOccurrences (p :: ps) =
          p.categories ++ allCategoryOccurrences ps := by
        simp [allCategoryOccurrences]
      rw [hocc, foldCategoryMap_append]
      rfl

/-- Folding a sequence of occurrences adds, for every name, exactly the
number of occurrences of that name to its count bucket. -/
theorem countForName_foldCategoryMap (cs : List Category)
    (acc : List CategoryWithCount) (n : String) :
    countForName (foldCategoryMap cs acc) n =
      countForName acc n + cs.countP (fun c => c.name = n) := by
  induction cs generalizing acc with
  | nil => simp [foldCategoryMap]
  | cons c cs ih =>
      rw [foldCategoryMap_cons, ih, updateCategoryMap_countForName,
        List.countP_cons]
      by_cases h : c.name = n <;> simp [h] <;> omega

/-- Folding a sequence of occurrences adds its length to the total of all
counts. -/
theorem totalCount_foldCategoryMap (cs : List Category)
    (acc : List CategoryWithCount) :
    totalCount (foldCategoryMap cs acc) = totalCount acc + cs.length := by
  induction cs generalizing acc with
  | nil => simp [foldCategoryMap]
  | cons c cs ih =>
      rw [foldCategoryMap_cons, ih, updateCategoryMap_totalCount,
        List.length_cons]
      omega

/-- A name appears among the fold's records exactly when it was already
present or occurs in the folded sequence. -/
theorem mem_mapNames_foldCategoryMap (cs : List Category)
    (acc : List CategoryWithCount) (n : String) :
    n ∈ mapNames (foldCategoryMap cs acc) ↔
      n ∈ mapNames acc ∨ ∃ c ∈ cs, c.name = n := by
  induction cs generalizing acc with
  | nil => simp [foldCategoryMap]
  | cons c cs ih =>
      rw [foldCategoryMap_cons, ih]
      have hstep : n ∈ mapNames (updateCategoryMap c acc) ↔
          n ∈ mapNames acc ∨ c.name = n := by
        rw [updateCategoryMap_mapNames]
        by_cases h : c.name ∈ mapNames acc
        · rw [if_pos h]
          constructor
          · exact Or.inl
          · rintro (hx | rfl)
            · exact hx
            · exact h
        · rw [if_neg h]
          simp only [List.mem_append, List.mem_singleton]
          constructor
          · rintro (hx | rfl)
            · exact Or.inl hx
            · exact Or.inr rfl
          · rintro (hx | rfl)
            · exact Or.inl hx
            · exact Or.inr rfl
      rw [hstep]
      simp only [List.exists_mem_cons_iff]
      tauto

/-- An identifier lies in a name's bucket after the fold exactly when it
was already there or some occurrence in the folded sequence carries that
name and identifier. -/
theorem mem_idsForName_foldCategoryMap (cs : List Category)
    (acc : List CategoryWithCount) (n x : String) :
    x ∈ idsForName (foldCategoryMap cs acc) n ↔
      x ∈ idsForName acc n ∨ ∃ c ∈ cs, c.name = n ∧ x = c.id := by
  induction cs generalizing acc with
  | nil => simp [foldCategoryMap]
  | cons c cs ih =>
      rw [foldCategoryMap_cons, ih, mem_idsForName_updateCategoryMap]
      simp only [List.exists_mem_cons_iff]
      tauto

/-- The fold keeps the record names duplicate-free. -/
theorem mapNames_nodup_foldCategoryMap (cs : List Category)
    (acc : List CategoryWithCount) (h : (mapNames acc).Nodup) :
    (mapNames (foldCategoryMap cs acc)).Nodup := by
  induction cs generalizing acc with
  | nil => simpa [foldCategoryMap] using h
  | cons c cs ih =>
      rw [foldCategoryMap_cons]
      apply ih
      rw [updateCategoryMap_mapNames]
      by_cases hm : c.name ∈ mapNames acc
      · rwa [if_pos hm]
      · rw [if_neg hm, List.nodup_append]
        refine ⟨h, List.nodup_singleton _, ?_⟩
        intro a ha hb
        rw [List.mem_singleton] at hb
        exact hm (hb ▸ ha)

/-- The fold keeps every identifier bucket duplicate-free. -/
theorem ids_nodup_foldCategoryMap (cs : List Category)
    (acc : List CategoryWithCount) (h : ∀ r ∈ acc, r.ids.Nodup) :
    ∀ r ∈ foldCategoryMap cs acc, r.ids.Nodup := by
  induction cs generalizing acc with
  | nil => simpa [foldCategoryMap] using h
  | cons c cs ih =>
      rw [foldCategoryMap_cons]
      exact ih _ (updateCategoryMap_ids_nodup c acc h)

/-- The fold keeps every display identifier equal to its record's name. -/
theorem id_eq_name_foldCategoryMap (cs : List Category)
    (acc : List CategoryWithCount) (h : ∀ r ∈ acc, r.id = r.name) :
    ∀ r ∈ foldCategoryMap cs acc, r.id = r.name := by
  induction cs generalizing acc with
  | nil => simpa [foldCategoryMap] using h
  | cons c cs ih =>
      rw [foldCategoryMap_cons]
      exact ih _ (updateCategoryMap_id_eq_name c acc h)

/-- With duplicate-free names, filtering an aggregate list by a member's
name isolates exactly that member. -/
theorem filter_name_eq_single (acc : List CategoryWithCount)
    (r : CategoryWithCount) (hnd : (mapNames acc).Nodup) (hr : r ∈ acc) :
    acc.filter (fun e => e.name = r.name) = [r] := by
  induction acc with
  | nil => cases hr
  | cons entry rest ih =>
      rw [mapNames_cons, List.nodup_cons] at hnd
      rcases List.mem_cons.mp hr with rfl | hr'
      · rw [List.filter_cons, if_pos (by simp)]
        have hnil : rest.filter (fun e => e.name = r.name) = [] := by
          rw [List.filter_eq_nil_iff]
          intro e he
          simp only [decide_eq_true_eq]
          intro heq
          exact hnd.1 (heq ▸ List.mem_map_of_mem (fun r => r.name) he)
        rw [hnil]
      · have hne : ¬ (entry.name = r.name) := by
          intro heq
          apply hnd.1
          rw [heq]
          exact List.mem_map_of_mem (fun r => r.name) hr'
        rw [List.filter_cons, if_neg (by simp [hne])]
        exact ih hnd.2 hr'

/-- With duplicate-free names, a member's count bucket is its own count. -/
theorem countForName_eq_of_mem (acc : List CategoryWithCount)
    (r : CategoryWithCount) (hnd : (mapNames acc).Nodup) (hr : r ∈ acc) :
    countForName acc r.name = r.count := by
  rw [countForName, filter_name_eq_single acc r hnd hr]
  simp

/-- With duplicate-free names, a member's identifier bucket is its own
identifier list. -/
theorem idsForName_eq_of_mem (acc : List CategoryWithCount)
    (r : CategoryWithCount) (hnd : (mapNames acc).Nodup) (hr : r ∈ acc) :
    idsForName acc r.name = r.ids := by
  rw [idsForName, filter_name_eq_single acc r hnd hr]
  simp

/-- The names of the category map built by `fetchPosts` are pairwise
distinct. -/
theorem mapNames_nodup_buildCategoryMap (posts : List Post) :
    (mapNames (buildCategoryMap posts)).Nodup := by
  rw [buildCategoryMap_eq_fold]
  exact mapNames_nodup_foldCategoryMap _ _ (by simp [mapNames])

/-- Sorting the category map is a permutation of it. -/
theorem uniqueCategories_perm (posts : List Post) :
    (uniqueCategories posts).Perm (buildCategoryMap posts) :=
  List.mergeSort_perm _ _

/-- Claim C4: all category occurrences sharing a name collapse into a
single aggregate record (the record names are pairwise distinct and cover
exactly the names occurring in the posts); each record's display
identifier equals its name, its identifier list holds each original
identifier seen under that name exactly once (duplicate-free, membership
characterised), its count equals the number of occurrences of that name
across all posts, and the resulting sequence is sorted by name. -/
theorem C4_category_aggregation (posts : List Post) :
    (∀ r ∈ uniqueCategories posts, r.id = r.name) ∧
    (mapNames (uniqueCategories posts)).Nodup ∧
    (∀ n : String, (∃ r ∈ uniqueCategories posts, r.name = n) ↔
        ∃ c ∈ allCategoryOccurrences posts, c.name = n) ∧
    (∀ r ∈ uniqueCategories posts,
        r.count =
          (allCategoryOccurrences posts).countP (fun c => c.name = r.name) ∧
        r.ids.Nodup ∧
        (∀ x : String, x ∈ r.ids ↔
            ∃ c ∈ allCategoryOccurrences posts,
              c.name = r.name ∧ x = c.id)) ∧
    (uniqueCategories posts).Pairwise (fun a b => a.name ≤ b.name) := by
  have hperm := uniqueCategories_perm posts
  have hmem : ∀ r : CategoryWithCount,
      r ∈ uniqueCategories posts ↔ r ∈ buildCategoryMap posts :=
    fun r => hperm.mem_iff
  have hnd : (mapNames (buildCategoryMap posts)).Nodup :=
    mapNames_nodup_buildCategoryMap posts
  refine ⟨?_, ?_, ?_, ?_, ?_⟩
  · intro r hr
    have hall : ∀ e ∈ buildCategoryMap posts, e.id = e.name := by
      rw [buildCategoryMap_eq_fold]
      exact id_eq_name_foldCategoryMap _ _ (by simp)
    exact hall r ((hmem r).mp hr)
  · have hp : (mapNames (uniqueCategories posts)).Perm
        (mapNames (buildCategoryMap posts)) := hperm.map _
    exact hp.nodup_iff.mpr hnd
  · intro n
    constructor
    · rintro ⟨r, hr, rfl⟩
      have h1 : r.name ∈ mapNames (buildCategoryMap posts) :=
        List.mem_map_of_mem _ ((hmem r).mp hr)
      rw [buildCategoryMap_eq_fold] at h1
      rcases (mem_mapNames_foldCategoryMap _ _ _).mp h1 with h2 | h2
      · simp [mapNames] at h2
      · exact h2
    · rintro ⟨c, hc, hcn⟩
      have h1 : n ∈ mapNames (foldCategoryMap (allCategoryOccurrences posts) []) :=
        (mem_mapNames_foldCategoryMap _ _ _).mpr (Or.inr ⟨c, hc, hcn⟩)
      rw [← buildCategoryMap_eq_fold] at h1
      rcases List.mem_map.mp h1 with ⟨r, hr, hrn⟩
      exact ⟨r, (hmem r).mpr hr, hrn⟩
  · intro r hr
    have hrb := (hmem r).mp hr
    refine ⟨?_, ?_, ?_⟩
    · have h1 : countForName (buildCategoryMap posts) r.name = r.count :=
        countForName_eq_of_mem _ r hnd hrb
      have h2 : countForName (buildCategoryMap posts) r.name =
          (allCategoryOccurrences posts).countP (fun c => c.name = r.name) := by
        rw [buildCategoryMap_eq_fold, countForName_foldCategoryMap]
        simp [countForName]
      exact h1.symm.trans h2
    · have hall : ∀ e ∈ buildCategoryMap posts, e.ids.Nodup := by
        rw [buildCategoryMap_eq_fold]
        exact ids_nodup_foldCategoryMap _ _ (by simp)
      exact hall r hrb
    · intro x
      have h1 : idsForName (buildCategoryMap posts) r.name = r.ids :=
        idsForName_eq_of_mem _ r hnd hrb
      rw [← h1, buildCategoryMap_eq_fold, mem_idsForName_foldCategoryMap]
      simp [idsForName]
  · have hsorted :
        List.Pairwise
          (fun a b : CategoryWithCount => decide (a.name ≤ b.name) = true)
          (uniqueCategories posts) :=
      List.sorted_mergeSort
        (fun a b c hab hbc => by
          simp only [decide_eq_true_eq] at hab hbc ⊢
          exact le_trans hab hbc)
        (fun a b => by
          simp only [Bool.or_eq_true, decide_eq_true_eq]
          exact le_total a.name b.name)
        (buildCategoryMap posts)
    exact hsorted.imp (fun h => by simpa using h)

/-- The number of category occurrences is the sum over the posts of the
lengths of their category lists. -/
theorem length_allCategoryOccurrences (posts : List Post) :
    (allCategoryOccurrences posts).length =
      (posts.map (fun p => p.categories.length)).sum := by
  induction posts with
  | nil => rfl
  | cons p ps ih =>
      have h : allCategoryOccurrences (p :: ps) =
          p.categories ++ allCategoryOccurrences ps := by
        simp [allCategoryOccurrences]
      rw [h, List.length_append, ih, List.map_cons, List.sum_cons]

/-- Claim C5: summing the count fields over all aggregated categories
equals the total number of (post, category) pairs in the input — the sum
over the posts of the lengths of their category lists, so a post with an
empty category list contributes nothing. -/
theorem C5_counts_sum_pairs (posts : List Post) :
    ((uniqueCategories posts).map (fun r => r.count)).sum =
      (posts.map (fun p => p.categories.length)).sum := by
  have hperm := uniqueCategories_perm posts
  have h1 : totalCount (uniqueCategories posts) =
      totalCount (buildCategoryMap posts) := by
    unfold totalCount
    exact (hperm.map (fun r => r.count)).sum_eq
  have h2 : totalCount (buildCategoryMap posts) =
      (allCategoryOccurrences posts).length := by
    rw [buildCategoryMap_eq_fold, totalCount_foldCategoryMap]
    simp [totalCount]
  exact (h1.trans h2).trans (length_allCategoryOccurrences posts)

end Blog
